import Mathlib

/-!
Shallow embedding of `src/index.js` (node-prisma catalog service).

The store is modelled as an explicit state holding the `Category` and
`Product` tables plus the next locally generated product id.  The ingestion
route `GET /fetch-data/:id` is modelled by `ingest`: the remote fetch result
is an `Except` value, the category loop and nested product loop are
structural recursion, and a thrown JS exception (malformed nested field,
i.e. `product.price.price` on a missing object) is modelled by
`createProduct` returning `.error`, which aborts the remaining iteration
exactly as the surrounding `try`/`catch` does in the source.
-/

namespace NodePrisma

/-- A row of the `Category` table (`prisma.category`): upstream-assigned
`id`, `name`, `user_id`. -/
structure Category where
  id : Int
  name : String
  user_id : Int
deriving DecidableEq

/-- A row of the `Product` table (`prisma.product`).  `id` is locally
generated; `created_at`/`updated_at` keep the upstream strings (the `Date`
parse is injective on the fields the claims touch and is left abstract). -/
structure Product where
  id : Nat
  title : String
  slug : String
  lang : String
  auth_id : Int
  status : String
  type : String
  count : Int
  created_at : String
  updated_at : String
  category_id : Int
  price : ℚ
  preview : String
  stock : Int
deriving DecidableEq

/-- A product record of the remote document.  The nested objects
`price.price`, `preview.content`, `stock.stock` are modelled as `Option`
fields: `none` models a malformed nested field whose access throws in the
source (`product.price.price` with `price` absent). -/
structure UpProduct where
  title : String
  slug : String
  lang : String
  auth_id : Int
  status : String
  type : String
  count : Int
  created_at : String
  updated_at : String
  price : Option ℚ
  preview : Option String
  stock : Option Int
deriving DecidableEq

/-- A category block of the remote document: `{ id, name, user_id,
products: [...] }`. -/
structure CategoryBlock where
  id : Int
  name : String
  user_id : Int
  products : List UpProduct
deriving DecidableEq

/-- The remote document shape: `{ products: [ categoryBlock, ... ] }`. -/
structure Document where
  products : List CategoryBlock
deriving DecidableEq

/-- The relational store: the two tables and the next generated product id. -/
structure State where
  categories : List Category
  products : List Product
  nextId : Nat
deriving DecidableEq

/-- The `productExists(title, categoryId)` helper from `src/index.js:15-23`:
`findFirst` over `Product` matching `title` and `category_id` exactly,
returning whether a row was found. -/
def productExists (title : String) (categoryId : Int) (s : State) : Bool :=
  s.products.any (fun p => p.title == title && p.category_id == categoryId)

/-- The list-level part of `prisma.category.upsert` (`src/index.js:37-48`):
if a row with the block's `id` is present, overwrite its `name` and
`user_id` in place; otherwise append a new row with the upstream id. -/
def upsertCatList (c : CategoryBlock) (l : List Category) : List Category :=
  if l.any (fun k => k.id == c.id) then
    l.map (fun k =>
      if k.id == c.id then { k with name := c.name, user_id := c.user_id } else k)
  else
    l ++ [⟨c.id, c.name, c.user_id⟩]

/-- The `prisma.category.upsert` call applied to the store state. -/
def categoryUpsert (c : CategoryBlock) (s : State) : State :=
  { s with categories := upsertCatList c s.categories }

/-- The `prisma.product.create` call (`src/index.js:55-71`): flatten the nested
upstream fields (`price.price`, `preview.content`, `stock.stock`) into the
new row; a malformed nested field throws, modelled as `.error`. -/
def createProduct (categoryId : Int) (p : UpProduct) (s : State) :
    Except Unit State :=
  match p.price, p.preview, p.stock with
  | some pr, some pv, some st =>
    .ok { s with
          products := s.products ++
            [⟨s.nextId, p.title, p.slug, p.lang, p.auth_id, p.status, p.type,
              p.count, p.created_at, p.updated_at, categoryId, pr, pv, st⟩]
          nextId := s.nextId + 1 }
  | _, _, _ => .error ()

/-- The inner product loop (`src/index.js:50-73`): check
`productExists`, skip if found, otherwise create; an exception aborts the
rest of the run (the `Bool` is `false` on abort, and the returned state is
the state at the point of failure). -/
def runProducts (categoryId : Int) (ps : List UpProduct) (s : State) :
    State × Bool :=
  match ps with
  | [] => (s, true)
  | p :: rest =>
    if productExists p.title categoryId s then
      runProducts categoryId rest s
    else
      match createProduct categoryId p s with
      | .ok s' => runProducts categoryId rest s'
      | .error _ => (s, false)

/-- One iteration of the category loop (`src/index.js:35-74`): upsert the
category, then run the nested product loop with the stored category id
(`categoryData.id`, which equals the block's `id`). -/
def runCat (c : CategoryBlock) (s : State) : State × Bool :=
  runProducts c.id c.products (categoryUpsert c s)

/-- The category loop: process blocks in document order, stopping at the
first thrown exception. -/
def runDoc (cs : List CategoryBlock) (s : State) : State × Bool :=
  match cs with
  | [] => (s, true)
  | c :: rest =>
    if (runCat c s).2 then runDoc rest (runCat c s).1 else runCat c s

/-- The whole `GET /fetch-data/:id` handler (`src/index.js:26-81`): a
failed fetch (`axios.get` throwing, non-2xx, malformed body) reaches the
`catch` directly and writes nothing; otherwise the document is processed.
The `Bool` is the response outcome: `true` for the 200 confirmation,
`false` for the single 500 failure response. -/
def ingest (fetched : Except Unit Document) (s : State) : State × Bool :=
  match fetched with
  | .ok doc => runDoc doc.products s
  | .error _ => (s, false)

/-- The update payload of `PUT /products/:id` (`src/index.js:183-210`):
exactly the fields destructured from the request body. -/
structure UpdatePayload where
  title : String
  slug : String
  lang : String
  auth_id : Int
  status : String
  type : String
  count : Int
  price : ℚ
  preview : String
  stock : Int
  category_id : Int
deriving DecidableEq

/-- The `data` object of the `prisma.product.update` call in
`PUT /products/:id`, applied to the target row: it overwrites exactly the
eleven payload fields. -/
def applyUpdate (d : UpdatePayload) (p : Product) : Product :=
  { p with
    title := d.title
    slug := d.slug
    lang := d.lang
    auth_id := d.auth_id
    status := d.status
    type := d.type
    count := d.count
    price := d.price
    preview := d.preview
    stock := d.stock
    category_id := d.category_id }

/-- The `prisma.product.update` call of `PUT /products/:id`: if a row with
the given id exists, overwrite the payload fields in place; otherwise
Prisma throws (record not found), modelled as `.error`. -/
def updateProduct (pid : Nat) (d : UpdatePayload) (s : State) :
    Except Unit State :=
  if s.products.any (fun p => p.id == pid) then
    .ok { s with products := s.products.map (fun p =>
      if p.id == pid then applyUpdate d p else p) }
  else .error ()

/-- The empty store. -/
def emptyState : State := ⟨[], [], 0⟩

/-! ### Basic lemmas about the store operations -/

theorem createProduct_ok_shape (cid : Int) (p : UpProduct) (s s' : State)
    (h : createProduct cid p s = .ok s') :
    ∃ r : Product, s'.products = s.products ++ [r] ∧ r.title = p.title ∧
      r.category_id = cid ∧ s'.categories = s.categories := by
  unfold createProduct at h
  cases hp : p.price with
  | none => rw [hp] at h; cases h
  | some pr =>
    cases hv : p.preview with
    | none => rw [hp, hv] at h; cases h
    | some pv =>
      cases hs : p.stock with
      | none => rw [hp, hv, hs] at h; cases h
      | some st =>
        rw [hp, hv, hs] at h
        cases h
        exact ⟨_, rfl, rfl, rfl, rfl⟩

theorem createProduct_error_any_state (cid : Int) (p : UpProduct) (s t : State)
    (h : createProduct cid p s = .error ()) : createProduct cid p t = .error () := by
  unfold createProduct at h ⊢
  cases hp : p.price with
  | none => rfl
  | some pr =>
    cases hv : p.preview with
    | none => rfl
    | some pv =>
      cases hs : p.stock with
      | none => rfl
      | some st => rw [hp, hv, hs] at h; cases h

theorem productExists_of_products_eq (a : String) (c : Int) (s t : State)
    (h : s.products = t.products) : productExists a c s = productExists a c t := by
  simp [productExists, h]

theorem productExists_mono (a : String) (c : Int) (s t : State) (l : List Product)
    (h : t.products = s.products ++ l) (he : productExists a c s = true) :
    productExists a c t = true := by
  simp only [productExists, h, List.any_append, Bool.or_eq_true]
  exact Or.inl he

theorem runProducts_categories (cid : Int) (ps : List UpProduct) (s : State) :
    (runProducts cid ps s).1.categories = s.categories := by
  induction ps generalizing s with
  | nil => rfl
  | cons p rest ih =>
    unfold runProducts
    by_cases h : productExists p.title cid s = true
    · simp only [h, if_true]; exact ih s
    · simp only [Bool.not_eq_true] at h
      simp only [h, Bool.false_eq_true, if_false]
      cases hc : createProduct cid p s with
      | ok s' =>
        have := createProduct_ok_shape cid p s s' hc
        obtain ⟨r, _, _, _, hcats⟩ := this
        simp only [ih s', hcats]
      | error u => rfl

theorem runProducts_products_append (cid : Int) (ps : List UpProduct) (s : State) :
    ∃ l, (runProducts cid ps s).1.products = s.products ++ l := by
  induction ps generalizing s with
  | nil => exact ⟨[], by simp [runProducts]⟩
  | cons p rest ih =>
    unfold runProducts
    by_cases h : productExists p.title cid s = true
    · simp only [h, if_true]; exact ih s
    · simp only [Bool.not_eq_true] at h
      simp only [h, Bool.false_eq_true, if_false]
      cases hc : createProduct cid p s with
      | ok s' =>
        obtain ⟨r, hr, _, _, _⟩ := createProduct_ok_shape cid p s s' hc
        obtain ⟨l, hl⟩ := ih s'
        exact ⟨[r] ++ l, by rw [hl, hr, List.append_assoc]⟩
      | error u => exact ⟨[], by simp⟩

theorem categoryUpsert_products (c : CategoryBlock) (s : State) :
    (categoryUpsert c s).products = s.products := rfl

theorem runCat_products_append (c : CategoryBlock) (s : State) :
    ∃ l, (runCat c s).1.products = s.products ++ l := by
  unfold runCat
  have := runProducts_products_append c.id c.products (categoryUpsert c s)
  rwa [categoryUpsert_products] at this

theorem runDoc_products_append (cs : List CategoryBlock) (s : State) :
    ∃ l, (runDoc cs s).1.products = s.products ++ l := by
  induction cs generalizing s with
  | nil => exact ⟨[], by simp [runDoc]⟩
  | cons c rest ih =>
    unfold runDoc
    cases hr : runCat c s with
    | mk s' b =>
      obtain ⟨l1, hl1⟩ := runCat_products_append c s
      rw [hr] at hl1
      simp only at hl1
      cases b with
      | true =>
        obtain ⟨l2, hl2⟩ := ih s'
        exact ⟨l1 ++ l2, by simp only [hr, if_true, hl2, hl1, List.append_assoc]⟩
      | false => exact ⟨l1, by simp only [hr, Bool.false_eq_true, if_false]; exact hl1⟩

/-! ### Replay lemmas: re-running the pipeline over an already-ingested
state performs no product writes -/

theorem runProducts_replay_true (cid : Int) (ps : List UpProduct) (s t : State)
    (hb : (runProducts cid ps s).2 = true)
    (hp : ∃ l, t.products = (runProducts cid ps s).1.products ++ l) :
    runProducts cid ps t = (t, true) := by
  induction ps generalizing s t with
  | nil => rfl
  | cons p rest ih =>
    unfold runProducts at hb hp ⊢
    by_cases he : productExists p.title cid s = true
    · simp only [he, if_true] at hb hp
      have hst : ∃ l, t.products = s.products ++ l := by
        obtain ⟨l, hl⟩ := hp
        obtain ⟨l1, hl1⟩ := runProducts_products_append cid rest s
        exact ⟨l1 ++ l, by rw [hl, hl1, List.append_assoc]⟩
      obtain ⟨l0, hl0⟩ := hst
      have het : productExists p.title cid t = true :=
        productExists_mono p.title cid s t l0 hl0 he
      simp only [het, if_true]
      exact ih s t hb hp
    · simp only [Bool.not_eq_true] at he
      simp only [he, Bool.false_eq_true, if_false] at hb hp
      cases hc : createProduct cid p s with
      | ok s' =>
        rw [hc] at hb hp
        obtain ⟨r, hr, hrt, hrc, _⟩ := createProduct_ok_shape cid p s s' hc
        have hst : ∃ l, t.products = s'.products ++ l := by
          obtain ⟨l, hl⟩ := hp
          obtain ⟨l1, hl1⟩ := runProducts_products_append cid rest s'
          exact ⟨l1 ++ l, by rw [hl, hl1, List.append_assoc]⟩
        have het : productExists p.title cid t = true := by
          obtain ⟨l0, hl0⟩ := hst
          apply productExists_mono p.title cid s' t l0 hl0
          simp only [productExists, hr, List.any_append, Bool.or_eq_true]
          right
          simp [hrt, hrc]
        simp only [het, if_true]
        exact ih s' t hb hp
      | error u =>
        rw [hc] at hb
        cases hb

theorem runProducts_replay_false (cid : Int) (ps : List UpProduct) (s t : State)
    (hb : (runProducts cid ps s).2 = false)
    (hp : t.products = (runProducts cid ps s).1.products) :
    runProducts cid ps t = (t, false) := by
  induction ps generalizing s t with
  | nil => cases hb
  | cons p rest ih =>
    unfold runProducts at hb hp ⊢
    by_cases he : productExists p.title cid s = true
    · simp only [he, if_true] at hb hp
      have hst : ∃ l, t.products = s.products ++ l := by
        obtain ⟨l1, hl1⟩ := runProducts_products_append cid rest s
        exact ⟨l1, by rw [hp, hl1]⟩
      obtain ⟨l0, hl0⟩ := hst
      have het : productExists p.title cid t = true :=
        productExists_mono p.title cid s t l0 hl0 he
      simp only [het, if_true]
      exact ih s t hb hp
    · simp only [Bool.not_eq_true] at he
      simp only [he, Bool.false_eq_true, if_false] at hb hp
      cases hc : createProduct cid p s with
      | ok s' =>
        rw [hc] at hb hp
        obtain ⟨r, hr, hrt, hrc, _⟩ := createProduct_ok_shape cid p s s' hc
        have hst : ∃ l, t.products = s'.products ++ l := by
          obtain ⟨l1, hl1⟩ := runProducts_products_append cid rest s'
          exact ⟨l1, by rw [hp, hl1]⟩
        have het : productExists p.title cid t = true := by
          obtain ⟨l0, hl0⟩ := hst
          apply productExists_mono p.title cid s' t l0 hl0
          simp only [productExists, hr, List.any_append, Bool.or_eq_true]
          right
          simp [hrt, hrc]
        simp only [het, if_true]
        exact ih s' t hb hp
      | error u =>
        rw [hc] at hb hp
        simp only at hp
        have het : productExists p.title cid t = false := by
          have := productExists_of_products_eq p.title cid t s hp
          rw [this, he]
        simp only [het, Bool.false_eq_true, if_false]
        cases u
        rw [createProduct_error_any_state cid p s t hc]

theorem runCat_snd (c : CategoryBlock) (s : State) :
    (runCat c s).2 = (runProducts c.id c.products (categoryUpsert c s)).2 := rfl

theorem runDoc_cons_true (c : CategoryBlock) (rest : List CategoryBlock)
    (s u : State) (hr : runCat c s = (u, true)) :
    runDoc (c :: rest) s = runDoc rest u := by
  have h0 : runDoc (c :: rest) s =
      if (runCat c s).2 then runDoc rest (runCat c s).1 else runCat c s := rfl
  rw [h0, hr]
  simp

theorem runDoc_cons_false (c : CategoryBlock) (rest : List CategoryBlock)
    (s u : State) (hr : runCat c s = (u, false)) :
    runDoc (c :: rest) s = (u, false) := by
  have h0 : runDoc (c :: rest) s =
      if (runCat c s).2 then runDoc rest (runCat c s).1 else runCat c s := rfl
  rw [h0, hr]
  simp

theorem runDoc_replay (cs : List CategoryBlock) (s t : State)
    (h1 : (runDoc cs s).2 = true → ∃ l, t.products = (runDoc cs s).1.products ++ l)
    (h2 : (runDoc cs s).2 = false → t.products = (runDoc cs s).1.products) :
    (runDoc cs t).1.products = t.products ∧ (runDoc cs t).2 = (runDoc cs s).2 := by
  induction cs generalizing s t with
  | nil => exact ⟨rfl, rfl⟩
  | cons c rest ih =>
    cases hr : runCat c s with
    | mk u bu =>
      cases bu with
      | true =>
        rw [runDoc_cons_true c rest s u hr] at h1 h2 ⊢
        have hut : ∃ l, (categoryUpsert c t).products = u.products ++ l := by
          obtain ⟨l2, hl2⟩ := runDoc_products_append rest u
          rw [categoryUpsert_products]
          cases hb : (runDoc rest u).2 with
          | true =>
            obtain ⟨l, hl⟩ := h1 hb
            exact ⟨l2 ++ l, by rw [hl, hl2, List.append_assoc]⟩
          | false =>
            exact ⟨l2, by rw [h2 hb, hl2]⟩
        have hct : runCat c t = (categoryUpsert c t, true) := by
          unfold runCat
          apply runProducts_replay_true c.id c.products (categoryUpsert c s)
          · have : (runCat c s).2 = true := by rw [hr]
            exact this
          · have : (runCat c s).1 = u := by rw [hr]
            unfold runCat at this
            rw [this]
            exact hut
        rw [runDoc_cons_true c rest t (categoryUpsert c t) hct]
        have hres := ih u (categoryUpsert c t)
          (by rw [categoryUpsert_products]; exact h1)
          (by rw [categoryUpsert_products]; exact h2)
        rw [categoryUpsert_products] at hres
        exact hres
      | false =>
        rw [runDoc_cons_false c rest s u hr] at h1 h2 ⊢
        simp only at h1 h2
        have hpt : t.products = u.products := h2 trivial
        have hct : runCat c t = (categoryUpsert c t, false) := by
          unfold runCat
          apply runProducts_replay_false c.id c.products (categoryUpsert c s)
          · have : (runCat c s).2 = false := by rw [hr]
            exact this
          · have : (runCat c s).1 = u := by rw [hr]
            unfold runCat at this
            rw [categoryUpsert_products, this]
            exact hpt
        rw [runDoc_cons_false c rest t (categoryUpsert c t) hct]
        exact ⟨categoryUpsert_products c t, rfl⟩

/-! ### Category id bookkeeping -/

theorem upsertCatList_map_id_present (c : CategoryBlock) (l : List Category)
    (h : l.any (fun k => k.id == c.id) = true) :
    (upsertCatList c l).map Category.id = l.map Category.id := by
  unfold upsertCatList
  simp only [h, if_true, List.map_map]
  apply List.map_congr_left
  intro k _
  by_cases hk : (k.id == c.id) = true
  · simp [Function.comp, hk]
  · simp only [Bool.not_eq_true] at hk
    simp [Function.comp, hk]

theorem upsertCatList_map_id_absent (c : CategoryBlock) (l : List Category)
    (h : l.any (fun k => k.id == c.id) = false) :
    (upsertCatList c l).map Category.id = l.map Category.id ++ [c.id] := by
  unfold upsertCatList
  simp [h]

theorem upsertCatList_map_id_append (c : CategoryBlock) (l : List Category) :
    ∃ m, (upsertCatList c l).map Category.id = l.map Category.id ++ m := by
  by_cases h : l.any (fun k => k.id == c.id) = true
  · exact ⟨[], by rw [upsertCatList_map_id_present c l h, List.append_nil]⟩
  · simp only [Bool.not_eq_true] at h
    exact ⟨[c.id], upsertCatList_map_id_absent c l h⟩

theorem runCat_categories (c : CategoryBlock) (s : State) :
    (runCat c s).1.categories = upsertCatList c s.categories := by
  unfold runCat
  rw [runProducts_categories]
  rfl

theorem runDoc_cat_ids_append (cs : List CategoryBlock) (s : State) :
    ∃ m, (runDoc cs s).1.categories.map Category.id
      = s.categories.map Category.id ++ m := by
  induction cs generalizing s with
  | nil => exact ⟨[], by simp [runDoc]⟩
  | cons c rest ih =>
    cases hr : runCat c s with
    | mk u b =>
      have hu : u.categories = upsertCatList c s.categories := by
        have := runCat_categories c s
        rw [hr] at this
        exact this
      obtain ⟨m1, hm1⟩ := upsertCatList_map_id_append c s.categories
      cases b with
      | true =>
        rw [runDoc_cons_true c rest s u hr]
        obtain ⟨m2, hm2⟩ := ih u
        exact ⟨m1 ++ m2, by rw [hm2, hu, hm1, List.append_assoc]⟩
      | false =>
        rw [runDoc_cons_false c rest s u hr]
        refine ⟨m1, ?_⟩
        show List.map Category.id u.categories = _
        rw [hu]
        exact hm1

/-! ### Claim theorems -/

/-- C1: ingesting the same remote document twice sequentially (no
interleaved concurrency) yields exactly the same `Product` rows — and hence
the same row count — as ingesting it once: every product of the second run
hits a `productExists` check that returns `true` (or replays the same
abort), so no insert happens. -/
theorem ingest_twice_same_product_rows (doc : Document) (s : State) :
    (ingest (.ok doc) (ingest (.ok doc) s).1).1.products
      = (ingest (.ok doc) s).1.products ∧
    (ingest (.ok doc) (ingest (.ok doc) s).1).1.products.length
      = (ingest (.ok doc) s).1.products.length := by
  have h := runDoc_replay doc.products s ((runDoc doc.products s).1)
    (fun _ => ⟨[], (List.append_nil _).symm⟩) (fun _ => rfl)
  exact ⟨h.1, congrArg List.length h.1⟩

/-- C5: `productExists title categoryId` returns `true` iff some `Product`
row matches both `title` and `category_id` by exact equality — no case or
whitespace normalization is applied. -/
theorem productExists_iff_exact_match (t : String) (c : Int) (s : State) :
    productExists t c s = true
      ↔ ∃ p ∈ s.products, p.title = t ∧ p.category_id = c := by
  simp [productExists, List.any_eq_true]

/-- C6: a created product maps the nested upstream fields into flat
columns: `price.price` into `price`, `preview.content` into `preview`,
`stock.stock` into `stock` (the remaining fields are copied and the row is
appended with the next generated id). -/
theorem createProduct_flattens_nested (cid : Int) (p : UpProduct) (s : State)
    (pr : ℚ) (pv : String) (st : Int)
    (hpr : p.price = some pr) (hpv : p.preview = some pv)
    (hst : p.stock = some st) :
    createProduct cid p s = .ok { s with
      products := s.products ++
        [⟨s.nextId, p.title, p.slug, p.lang, p.auth_id, p.status, p.type,
          p.count, p.created_at, p.updated_at, cid, pr, pv, st⟩]
      nextId := s.nextId + 1 } := by
  unfold createProduct
  rw [hpr, hpv, hst]

/-- A sample upstream product with `price: 19.99, preview.content: "x",
stock.stock: 5`. -/
def sampleNested : UpProduct :=
  ⟨"x-title", "x-slug", "en", 1, "active", "simple", 1,
   "2024-01-01T00:00:00Z", "2024-01-01T00:00:00Z",
   some (19.99 : ℚ), some "x", some 5⟩

/-- Witness for C6 at the spec's concrete values: the stored row has
`price = 19.99`, `preview = "x"`, `stock = 5`. -/
theorem createProduct_flattens_nested_witness :
    createProduct 1 sampleNested emptyState = .ok
      ⟨[], [⟨0, "x-title", "x-slug", "en", 1, "active", "simple", 1,
             "2024-01-01T00:00:00Z", "2024-01-01T00:00:00Z", 1,
             (19.99 : ℚ), "x", 5⟩], 1⟩ :=
  createProduct_flattens_nested 1 sampleNested emptyState
    (19.99 : ℚ) "x" 5 rfl rfl rfl

/-- C8: ingestion never deletes a row: the `Product` rows present before a
run are still present (an unchanged initial segment) after the run, and
every `Category` id present before is still present, whatever the
document and whether or not the run succeeds. -/
theorem ingest_never_deletes (doc : Document) (s : State) :
    (∃ l, (ingest (.ok doc) s).1.products = s.products ++ l) ∧
    (∃ m, (ingest (.ok doc) s).1.categories.map Category.id
        = s.categories.map Category.id ++ m) :=
  ⟨runDoc_products_append doc.products s, runDoc_cat_ids_append doc.products s⟩

/-! ### Abort behaviour of the loops -/

theorem runProducts_cons (cid : Int) (p : UpProduct) (rest : List UpProduct)
    (s : State) :
    runProducts cid (p :: rest) s =
      if productExists p.title cid s then
        runProducts cid rest s
      else
        match createProduct cid p s with
        | .ok s' => runProducts cid rest s'
        | .error _ => (s, false) := rfl

theorem runProducts_append (cid : Int) (a b : List UpProduct) (s : State) :
    runProducts cid (a ++ b) s =
      if (runProducts cid a s).2 then runProducts cid b (runProducts cid a s).1
      else runProducts cid a s := by
  induction a generalizing s with
  | nil => simp [runProducts]
  | cons p rest ih =>
    by_cases he : productExists p.title cid s = true
    · have l1 : runProducts cid ((p :: rest) ++ b) s = runProducts cid (rest ++ b) s := by
        rw [List.cons_append, runProducts_cons]
        simp [he]
      have l2 : runProducts cid (p :: rest) s = runProducts cid rest s := by
        rw [runProducts_cons]
        simp [he]
      rw [l1, l2]
      exact ih s
    · simp only [Bool.not_eq_true] at he
      cases hc : createProduct cid p s with
      | ok s' =>
        have l1 : runProducts cid ((p :: rest) ++ b) s = runProducts cid (rest ++ b) s' := by
          rw [List.cons_append, runProducts_cons, hc]
          simp [he]
        have l2 : runProducts cid (p :: rest) s = runProducts cid rest s' := by
          rw [runProducts_cons, hc]
          simp [he]
        rw [l1, l2]
        exact ih s'
      | error u =>
        have l1 : runProducts cid ((p :: rest) ++ b) s = (s, false) := by
          rw [List.cons_append, runProducts_cons, hc]
          simp [he]
        have l2 : runProducts cid (p :: rest) s = (s, false) := by
          rw [runProducts_cons, hc]
          simp [he]
        rw [l1, l2]
        simp

theorem runDoc_append (a b : List CategoryBlock) (s : State) :
    runDoc (a ++ b) s =
      if (runDoc a s).2 then runDoc b (runDoc a s).1 else runDoc a s := by
  induction a generalizing s with
  | nil => simp [runDoc]
  | cons c rest ih =>
    simp only [List.cons_append]
    cases hr : runCat c s with
    | mk u bu =>
      cases bu with
      | true =>
        rw [runDoc_cons_true c rest s u hr, runDoc_cons_true c (rest ++ b) s u hr]
        exact ih u
      | false =>
        rw [runDoc_cons_false c rest s u hr, runDoc_cons_false c (rest ++ b) s u hr]
        simp

/-- An upstream product whose nested price object is malformed
(`price.price` missing): accessing it throws in the source. -/
def malformedProd : UpProduct :=
  ⟨"Broken Mug", "broken-mug", "en", 9, "active", "simple", 1,
   "2024-01-01T00:00:00Z", "2024-01-01T00:00:00Z", none, some "desc", some 1⟩

/-- A well-formed upstream product. -/
def wellFormedProd : UpProduct :=
  ⟨"Red Shirt", "red-shirt", "en", 9, "active", "simple", 10,
   "2024-01-01T00:00:00Z", "2024-01-01T00:00:00Z",
   some 20, some "desc", some 3⟩

/-- A document whose category block lists a malformed product followed by a
well-formed one. -/
def mixedDoc : Document := ⟨[⟨1, "Shirts", 9, [malformedProd, wellFormedProd]⟩]⟩

/-- C3 counterexample: ingesting `mixedDoc` into the empty store inserts
no product at all — the malformed first product throws, the `catch`
aborts the run, and the well-formed second product is never processed,
refuting the claim that every other well-formed product is still
inserted. -/
theorem malformed_aborts_other_products :
    (ingest (.ok mixedDoc) emptyState).1.products = [] ∧
    (ingest (.ok mixedDoc) emptyState).2 = false := by
  constructor <;> rfl

/-- C3 amended: a malformed nested field at a single (non-pre-existing)
product aborts the remainder of the ingestion run at that point: the
products after it in iteration order are not processed, while the store
writes made before it in the same run remain committed (the final state is
exactly the state at the point of failure, and the outcome is the single
failure signal). -/
theorem malformed_aborts_rest_of_run (cid : Int) (nm : String) (uid : Int)
    (pre post : List UpProduct) (bad : UpProduct) (s : State)
    (hok : (runProducts cid pre
      (categoryUpsert ⟨cid, nm, uid, pre ++ bad :: post⟩ s)).2 = true)
    (hbad : bad.price = none)
    (hnew : productExists bad.title cid (runProducts cid pre
      (categoryUpsert ⟨cid, nm, uid, pre ++ bad :: post⟩ s)).1 = false) :
    ingest (.ok ⟨[⟨cid, nm, uid, pre ++ bad :: post⟩]⟩) s =
      ((runProducts cid pre
        (categoryUpsert ⟨cid, nm, uid, pre ++ bad :: post⟩ s)).1, false) := by
  show runDoc [⟨cid, nm, uid, pre ++ bad :: post⟩] s = _
  have hcat : runCat ⟨cid, nm, uid, pre ++ bad :: post⟩ s =
      ((runProducts cid pre
        (categoryUpsert ⟨cid, nm, uid, pre ++ bad :: post⟩ s)).1, false) := by
    unfold runCat
    rw [runProducts_append cid pre (bad :: post)
      (categoryUpsert ⟨cid, nm, uid, pre ++ bad :: post⟩ s), hok]
    simp only [if_true]
    rw [runProducts_cons]
    have herr : createProduct cid bad
        (runProducts cid pre
          (categoryUpsert ⟨cid, nm, uid, pre ++ bad :: post⟩ s)).1 = .error () := by
      unfold createProduct
      rw [hbad]
    rw [herr]
    simp [hnew]
  rw [runDoc_cons_false _ _ _ _ hcat]

/-- C3 amended witness at the counterexample document: the run aborts at
the malformed first product with nothing inserted. -/
theorem malformed_aborts_rest_of_run_witness :
    ingest (.ok ⟨[⟨1, "Shirts", 9, [] ++ malformedProd :: [wellFormedProd]⟩]⟩)
        emptyState =
      ((runProducts 1 []
        (categoryUpsert ⟨1, "Shirts", 9, [] ++ malformedProd :: [wellFormedProd]⟩
          emptyState)).1, false) :=
  malformed_aborts_rest_of_run 1 "Shirts" 9 [] [wellFormedProd] malformedProd
    emptyState (by rfl) (by rfl) (by decide)

/-- C4: a failed upstream fetch yields the single failure outcome and zero
writes; a store-level/thrown failure inside the category loop yields the
single failure outcome, leaves the state exactly as it was at the point of
failure (blocks after the failing one are never processed), and the rows
committed before the failure in the same run are retained (the initial
product rows are still an initial segment of the final table — no
rollback, no retry). -/
theorem failure_single_outcome_prior_writes_kept (s : State)
    (pre post : List CategoryBlock) (c : CategoryBlock)
    (hok : (runDoc pre s).2 = true)
    (hfail : (runCat c (runDoc pre s).1).2 = false) :
    ingest (.error ()) s = (s, false) ∧
    ingest (.ok ⟨pre ++ c :: post⟩) s = ((runCat c (runDoc pre s).1).1, false) ∧
    (∃ l, (runCat c (runDoc pre s).1).1.products = s.products ++ l) := by
  refine ⟨rfl, ?_, ?_⟩
  · show runDoc (pre ++ c :: post) s = _
    rw [runDoc_append pre (c :: post) s, hok]
    simp only [if_true]
    cases hc : runCat c (runDoc pre s).1 with
    | mk u bu =>
      rw [hc] at hfail
      simp only at hfail
      cases hfail
      exact runDoc_cons_false c post (runDoc pre s).1 u hc
  · obtain ⟨l1, h1⟩ := runDoc_products_append pre s
    obtain ⟨l2, h2⟩ := runCat_products_append c (runDoc pre s).1
    exact ⟨l1 ++ l2, by rw [h2, h1, List.append_assoc]⟩

/-- C4 witness: concrete failing ingestion — the fetch-failure outcome on
the empty store, and an aborting run whose sole block throws at a
malformed product, retaining the (empty) prior rows. -/
theorem failure_single_outcome_witness :
    ingest (.error ()) emptyState = (emptyState, false) ∧
    ingest (.ok ⟨[] ++ ⟨2, "Mugs", 9, [malformedProd]⟩ :: []⟩) emptyState =
      ((runCat ⟨2, "Mugs", 9, [malformedProd]⟩ (runDoc [] emptyState).1).1, false) ∧
    (∃ l, (runCat ⟨2, "Mugs", 9, [malformedProd]⟩
        (runDoc [] emptyState).1).1.products = emptyState.products ++ l) :=
  failure_single_outcome_prior_writes_kept emptyState [] []
    ⟨2, "Mugs", 9, [malformedProd]⟩ (by rfl) (by rfl)

/-! ### Referential integrity of product inserts -/

/-- Every `Product` row's `category_id` matches some `Category` row. -/
def RefIntact (s : State) : Prop :=
  ∀ p ∈ s.products, ∃ k ∈ s.categories, k.id = p.category_id

theorem upsertCatList_id_mem (c : CategoryBlock) (l : List Category) (d : Int)
    (h : d ∈ l.map Category.id) : d ∈ (upsertCatList c l).map Category.id := by
  by_cases ha : l.any (fun k => k.id == c.id) = true
  · rwa [upsertCatList_map_id_present c l ha]
  · simp only [Bool.not_eq_true] at ha
    rw [upsertCatList_map_id_absent c l ha]
    exact List.mem_append_left _ h

theorem upsertCatList_own_id_mem (c : CategoryBlock) (l : List Category) :
    c.id ∈ (upsertCatList c l).map Category.id := by
  by_cases ha : l.any (fun k => k.id == c.id) = true
  · rw [upsertCatList_map_id_present c l ha]
    obtain ⟨k, hk, hkid⟩ := List.any_eq_true.mp ha
    rw [beq_iff_eq] at hkid
    exact List.mem_map.mpr ⟨k, hk, hkid⟩
  · simp only [Bool.not_eq_true] at ha
    rw [upsertCatList_map_id_absent c l ha]
    exact List.mem_append_right _ (List.mem_singleton.mpr rfl)

theorem runProducts_refintact (cid : Int) (ps : List UpProduct) (s : State)
    (h : RefIntact s) (hc : cid ∈ s.categories.map Category.id) :
    RefIntact (runProducts cid ps s).1 := by
  induction ps generalizing s with
  | nil => exact h
  | cons p rest ih =>
    rw [runProducts_cons]
    by_cases he : productExists p.title cid s = true
    · simp only [he, if_true]
      exact ih s h hc
    · simp only [Bool.not_eq_true] at he
      simp only [he, Bool.false_eq_true, if_false]
      cases hcr : createProduct cid p s with
      | ok s' =>
        obtain ⟨r, hr, _, hrc, hcats⟩ := createProduct_ok_shape cid p s s' hcr
        apply ih s'
        · intro q hq
          rw [hr, List.mem_append] at hq
          rw [hcats]
          cases hq with
          | inl hql => exact h q hql
          | inr hqr =>
            rw [List.mem_singleton] at hqr
            subst hqr
            rw [hrc]
            obtain ⟨k, hk, hkid⟩ := List.mem_map.mp hc
            exact ⟨k, hk, hkid⟩
        · rw [hcats]
          exact hc
      | error u => exact h

theorem runCat_refintact (c : CategoryBlock) (s : State) (h : RefIntact s) :
    RefIntact (runCat c s).1 := by
  unfold runCat
  apply runProducts_refintact
  · intro p hp
    have hp' : p ∈ s.products := hp
    obtain ⟨k, hk, hkid⟩ := h p hp'
    have : k.id ∈ (upsertCatList c s.categories).map Category.id :=
      upsertCatList_id_mem c s.categories k.id (List.mem_map.mpr ⟨k, hk, rfl⟩)
    obtain ⟨k', hk', hk'id⟩ := List.mem_map.mp this
    exact ⟨k', hk', by rw [hk'id, hkid]⟩
  · exact upsertCatList_own_id_mem c s.categories

theorem runProducts_new_rows (cid : Int) (ps : List UpProduct) (s : State) :
    ∃ l, (runProducts cid ps s).1.products = s.products ++ l ∧
      ∀ r ∈ l, r.category_id = cid := by
  induction ps generalizing s with
  | nil => exact ⟨[], by simp [runProducts]⟩
  | cons p rest ih =>
    rw [runProducts_cons]
    by_cases he : productExists p.title cid s = true
    · simp only [he, if_true]
      exact ih s
    · simp only [Bool.not_eq_true] at he
      simp only [he, Bool.false_eq_true, if_false]
      cases hcr : createProduct cid p s with
      | ok s' =>
        obtain ⟨r, hr, _, hrc, _⟩ := createProduct_ok_shape cid p s s' hcr
        obtain ⟨l', hl', hl'c⟩ := ih s'
        refine ⟨[r] ++ l', by rw [hl', hr, List.append_assoc], ?_⟩
        intro q hq
        rw [List.mem_append, List.mem_singleton] at hq
        cases hq with
        | inl hql => rw [hql]; exact hrc
        | inr hqr => exact hl'c q hqr
      | error u => exact ⟨[], by simp⟩

/-- C7: category-before-product ordering: the category loop upserts the
block's `Category` row before running the nested product loop, every row
that loop inserts carries exactly the upserted block's stored id (present
in the `Category` table at that point), and referential integrity of
`category_id` is preserved by every ingestion run — ingestion never leaves
a product row with a dangling `category_id`. -/
theorem ingest_no_dangling_category (doc : Document) (s : State)
    (h : RefIntact s) :
    RefIntact (ingest (.ok doc) s).1 ∧
    ∀ (c : CategoryBlock) (t : State), ∃ l,
      (runCat c t).1.products = t.products ++ l ∧
      ∀ r ∈ l, r.category_id = c.id ∧
        r.category_id ∈ (runCat c t).1.categories.map Category.id := by
  constructor
  · show RefIntact (runDoc doc.products s).1
    induction doc.products generalizing s with
    | nil => exact h
    | cons c rest ih =>
      cases hr : runCat c s with
      | mk u bu =>
        have hu : RefIntact u := by
          have := runCat_refintact c s h
          rwa [hr] at this
        cases bu with
        | true =>
          rw [runDoc_cons_true c rest s u hr]
          exact ih u hu
        | false =>
          rw [runDoc_cons_false c rest s u hr]
          exact hu
  · intro c t
    obtain ⟨l, hl, hlc⟩ :=
      runProducts_new_rows c.id c.products (categoryUpsert c t)
    refine ⟨l, hl, ?_⟩
    intro r hr
    refine ⟨hlc r hr, ?_⟩
    rw [hlc r hr, runCat_categories]
    exact upsertCatList_own_id_mem c t.categories

/-- A well-formed single-block document used for witnesses. -/
def shirtsDoc : Document := ⟨[⟨1, "Shirts", 9, [wellFormedProd]⟩]⟩

/-- Witness for C7: ingesting `shirtsDoc` into the empty store (which
trivially satisfies referential integrity) yields a store with no dangling
`category_id`. -/
theorem ingest_no_dangling_category_witness :
    RefIntact (ingest (.ok shirtsDoc) emptyState).1 :=
  (ingest_no_dangling_category shirtsDoc emptyState
    (by intro p hp; simp [emptyState] at hp)).1

/-! ### Application-level uniqueness of (title, category_id) -/

/-- At most one `Product` row per (`title`, `category_id`) pair. -/
def UniqueTitleCat (s : State) : Prop :=
  ∀ (t : String) (c : Int),
    s.products.countP (fun p => p.title == t && p.category_id == c) ≤ 1

theorem countP_zero_of_not_exists (a : String) (c : Int) (s : State)
    (he : productExists a c s = false) :
    s.products.countP (fun p => p.title == a && p.category_id == c) = 0 := by
  rw [List.countP_eq_zero]
  intro p hp
  intro hpc
  have : s.products.any (fun p => p.title == a && p.category_id == c) = true :=
    List.any_eq_true.mpr ⟨p, hp, hpc⟩
  rw [productExists] at he
  rw [he] at this
  cases this

theorem createProduct_unique (cid : Int) (p : UpProduct) (s s' : State)
    (h : UniqueTitleCat s) (he : productExists p.title cid s = false)
    (hc : createProduct cid p s = .ok s') : UniqueTitleCat s' := by
  obtain ⟨r, hr, hrt, hrc, _⟩ := createProduct_ok_shape cid p s s' hc
  intro t c
  rw [hr, List.countP_append]
  by_cases hmatch : (r.title == t && r.category_id == c) = true
  · rw [Bool.and_eq_true, beq_iff_eq, beq_iff_eq] at hmatch
    obtain ⟨hmt, hmc⟩ := hmatch
    have ht : t = p.title := by rw [← hmt, hrt]
    have hcc : c = cid := by rw [← hmc, hrc]
    rw [ht, hcc, countP_zero_of_not_exists p.title cid s he]
    simp [List.countP_cons, hrt, hrc]
  · have h1 : List.countP (fun q => q.title == t && q.category_id == c) [r] = 0 := by
      simp only [List.countP_cons, List.countP_nil]
      simp only [Bool.not_eq_true] at hmatch
      rw [hmatch]
      rfl
    rw [h1, Nat.add_zero]
    exact h t c

theorem runProducts_unique (cid : Int) (ps : List UpProduct) (s : State)
    (h : UniqueTitleCat s) : UniqueTitleCat (runProducts cid ps s).1 := by
  induction ps generalizing s with
  | nil => exact h
  | cons p rest ih =>
    rw [runProducts_cons]
    by_cases he : productExists p.title cid s = true
    · simp only [he, if_true]
      exact ih s h
    · simp only [Bool.not_eq_true] at he
      simp only [he, Bool.false_eq_true, if_false]
      cases hcr : createProduct cid p s with
      | ok s' => exact ih s' (createProduct_unique cid p s s' h he hcr)
      | error u => exact h

theorem runCat_unique (c : CategoryBlock) (s : State) (h : UniqueTitleCat s) :
    UniqueTitleCat (runCat c s).1 := by
  unfold runCat
  apply runProducts_unique
  intro t cc
  exact h t cc

/-- C9: the existence check is evaluated against the current store state
immediately before each individual insert, so any ingestion run — in
particular one whose document lists the same (`title`, `category_id`) pair
several times, in the same or different category blocks — preserves the
at-most-one-row-per-pair invariant whenever the store satisfied it before
the run. -/
theorem ingest_preserves_unique_pairs (doc : Document) (s : State)
    (h : UniqueTitleCat s) : UniqueTitleCat (ingest (.ok doc) s).1 := by
  show UniqueTitleCat (runDoc doc.products s).1
  induction doc.products generalizing s with
  | nil => exact h
  | cons c rest ih =>
    cases hr : runCat c s with
    | mk u bu =>
      have hu : UniqueTitleCat u := by
        have := runCat_unique c s h
        rwa [hr] at this
      cases bu with
      | true =>
        rw [runDoc_cons_true c rest s u hr]
        exact ih u hu
      | false =>
        rw [runDoc_cons_false c rest s u hr]
        exact hu

/-- A document listing the same (`title`, `category_id`) pair twice within
one run. -/
def dupPairDoc : Document :=
  ⟨[⟨1, "Shirts", 9, [wellFormedProd, wellFormedProd]⟩]⟩

/-- Witness for C9: ingesting a document that lists the same pair twice
into the empty store still satisfies the at-most-one-row-per-pair
invariant. -/
theorem ingest_preserves_unique_pairs_witness :
    UniqueTitleCat (ingest (.ok dupPairDoc) emptyState).1 :=
  ingest_preserves_unique_pairs dupPairDoc emptyState
    (by intro t c; simp [emptyState])

/-! ### The CRUD update's frame -/

/-- C10: `PUT /products/:id` updates only the payload fields (`title`,
`slug`, `lang`, `auth_id`, `status`, `type`, `count`, `price`, `preview`,
`stock`, `category_id`): on every successful update the table keeps its
length and every row — the target included — keeps its `id`, `created_at`
and `updated_at` unchanged, and the `Category` table is untouched. -/
theorem updateProduct_frame (pid : Nat) (d : UpdatePayload) (s s' : State)
    (h : updateProduct pid d s = .ok s') :
    s'.products.length = s.products.length ∧
    (∀ i : Nat,
      (s'.products[i]?).map Product.id = (s.products[i]?).map Product.id ∧
      (s'.products[i]?).map Product.created_at
        = (s.products[i]?).map Product.created_at ∧
      (s'.products[i]?).map Product.updated_at
        = (s.products[i]?).map Product.updated_at) ∧
    s'.categories = s.categories := by
  unfold updateProduct at h
  by_cases hf : s.products.any (fun p => p.id == pid) = true
  · rw [if_pos hf] at h
    cases h
    refine ⟨by simp, ?_, rfl⟩
    intro i
    simp only [List.getElem?_map]
    cases hgi : s.products[i]? with
    | none => exact ⟨rfl, rfl, rfl⟩
    | some p =>
      have hid : (if (p.id == pid) = true then applyUpdate d p else p).id = p.id := by
        split <;> rfl
      have hcr : (if (p.id == pid) = true then applyUpdate d p else p).created_at
          = p.created_at := by
        split <;> rfl
      have hup : (if (p.id == pid) = true then applyUpdate d p else p).updated_at
          = p.updated_at := by
        split <;> rfl
      exact ⟨congrArg some hid, congrArg some hcr, congrArg some hup⟩
  · rw [if_neg hf] at h
    cases h

/-- A one-row store and a payload used to witness the update frame. -/
def storedRow : Product :=
  ⟨0, "Red Shirt", "red-shirt", "en", 9, "active", "simple", 10,
   "2024-01-01T00:00:00Z", "2024-01-02T00:00:00Z", 1, 20, "desc", 3⟩

/-- A sample update payload. -/
def samplePayload : UpdatePayload :=
  ⟨"Blue Shirt", "blue-shirt", "id", 4, "draft", "variable", 7, 25, "new", 8, 2⟩

/-- The store after updating `storedRow` with `samplePayload`. -/
def updatedStore : State :=
  ⟨[⟨1, "Shirts", 9⟩],
   [⟨0, "Blue Shirt", "blue-shirt", "id", 4, "draft", "variable", 7,
     "2024-01-01T00:00:00Z", "2024-01-02T00:00:00Z", 2, 25, "new", 8⟩], 1⟩

/-- Witness for C10: a concrete successful update keeps `id`, `created_at`
and `updated_at` of the target row. -/
theorem updateProduct_frame_witness :
    ((updatedStore.products[0]?).map Product.id
        = ((⟨[⟨1, "Shirts", 9⟩], [storedRow], 1⟩ : State).products[0]?).map
            Product.id) ∧
    ((updatedStore.products[0]?).map Product.created_at
        = ((⟨[⟨1, "Shirts", 9⟩], [storedRow], 1⟩ : State).products[0]?).map
            Product.created_at) ∧
    ((updatedStore.products[0]?).map Product.updated_at
        = ((⟨[⟨1, "Shirts", 9⟩], [storedRow], 1⟩ : State).products[0]?).map
            Product.updated_at) :=
  (updateProduct_frame 0 samplePayload ⟨[⟨1, "Shirts", 9⟩], [storedRow], 1⟩
    updatedStore (by rfl)).2.1 0

/-! ### Last-write-wins characterisation of the category upsert -/

/-- The last category block of a document carrying the given upstream id —
the "latest ingested values" for that id. -/
def lastWith (d : Int) (cs : List CategoryBlock) : Option CategoryBlock :=
  match cs with
  | [] => none
  | c :: rest =>
    match lastWith d rest with
    | some b => some b
    | none => if c.id == d then some c else none

theorem lastWith_id (d : Int) (cs : List CategoryBlock) (b : CategoryBlock)
    (h : lastWith d cs = some b) : b.id = d := by
  induction cs with
  | nil => cases h
  | cons c rest ih =>
    unfold lastWith at h
    cases hr : lastWith d rest with
    | some b' =>
      rw [hr] at h
      cases h
      exact ih hr
    | none =>
      rw [hr] at h
      by_cases hc : (c.id == d) = true
      · rw [if_pos hc] at h
        cases h
        exact beq_iff_eq.mp hc
      · rw [if_neg hc] at h
        cases h

theorem lastWith_isSome_of_mem (cs : List CategoryBlock) (c : CategoryBlock)
    (h : c ∈ cs) : ∃ b, lastWith c.id cs = some b := by
  induction cs with
  | nil => cases h
  | cons x rest ih =>
    rw [List.mem_cons] at h
    by_cases hsome : ∃ b, lastWith c.id rest = some b
    · obtain ⟨b, hb⟩ := hsome
      refine ⟨b, ?_⟩
      unfold lastWith
      rw [hb]
    · have hnone : lastWith c.id rest = none := by
        cases hlr : lastWith c.id rest with
        | some b => exact absurd ⟨b, hlr⟩ hsome
        | none => rfl
      cases h with
      | inl hx =>
        refine ⟨x, ?_⟩
        unfold lastWith
        rw [hnone]
        have hxid : (x.id == c.id) = true := beq_iff_eq.mpr (by rw [hx])
        rw [if_pos hxid]
      | inr hrest => exact absurd (ih hrest) hsome

theorem not_mem_ids_of_any_eq_false (c : CategoryBlock) (l : List Category)
    (ha : l.any (fun k => k.id == c.id) = false) :
    c.id ∉ l.map Category.id := by
  intro hmem
  obtain ⟨k, hk, hkid⟩ := List.mem_map.mp hmem
  have : l.any (fun k => k.id == c.id) = true :=
    List.any_eq_true.mpr ⟨k, hk, beq_iff_eq.mpr hkid⟩
  rw [ha] at this
  cases this

theorem upsertCatList_nodup (c : CategoryBlock) (l : List Category)
    (hnd : (l.map Category.id).Nodup) :
    ((upsertCatList c l).map Category.id).Nodup := by
  by_cases ha : l.any (fun k => k.id == c.id) = true
  · rwa [upsertCatList_map_id_present c l ha]
  · simp only [Bool.not_eq_true] at ha
    rw [upsertCatList_map_id_absent c l ha]
    apply List.Nodup.append hnd (List.nodup_singleton c.id)
    intro a hal har
    rw [List.mem_singleton] at har
    subst har
    exact not_mem_ids_of_any_eq_false c l ha hal

theorem filter_map_upd_eq (c : CategoryBlock) (l : List Category)
    (hnd : (l.map Category.id).Nodup) (ha : l.any (fun k => k.id == c.id) = true) :
    (l.map (fun k => if k.id == c.id then
        ({ k with name := c.name, user_id := c.user_id } : Category) else k)).filter
      (fun k => k.id == c.id) = [⟨c.id, c.name, c.user_id⟩] := by
  induction l with
  | nil => cases ha
  | cons k rest ih =>
    simp only [List.map_cons]
    by_cases hk : (k.id == c.id) = true
    · have hkid : k.id = c.id := beq_iff_eq.mp hk
      rw [List.filter_cons]
      have hpass : ((if k.id == c.id then
          ({ k with name := c.name, user_id := c.user_id } : Category) else k).id
            == c.id) = true := by
        rw [if_pos hk]
        exact beq_iff_eq.mpr hkid
      rw [if_pos hpass, if_pos hk]
      have hrest : (rest.map (fun k => if k.id == c.id then
          ({ k with name := c.name, user_id := c.user_id } : Category) else k)).filter
            (fun k => k.id == c.id) = [] := by
        rw [List.filter_eq_nil_iff]
        intro a hamem
        obtain ⟨k', hk', hfk'⟩ := List.mem_map.mp hamem
        have hnot : c.id ∉ rest.map Category.id := by
          rw [List.map_cons, List.nodup_cons, hkid] at hnd
          exact hnd.1
        have hk'ne : (k'.id == c.id) = false := by
          by_contra hcon
          simp only [Bool.not_eq_false] at hcon
          exact hnot (List.mem_map.mpr ⟨k', hk', beq_iff_eq.mp hcon⟩)
        rw [← hfk']
        simp [hk'ne]
      rw [hrest]
      have : ({ k with name := c.name, user_id := c.user_id } : Category)
          = ⟨c.id, c.name, c.user_id⟩ := by
        rw [show ({ k with name := c.name, user_id := c.user_id } : Category)
          = ⟨k.id, c.name, c.user_id⟩ from rfl, hkid]
      rw [this]
    · simp only [Bool.not_eq_true] at hk
      rw [List.filter_cons]
      have hfail : ((if k.id == c.id then
          ({ k with name := c.name, user_id := c.user_id } : Category) else k).id
            == c.id) = false := by
        rw [hk]
        simp only [Bool.false_eq_true, if_false]
        exact hk
      rw [hfail]
      simp only [Bool.false_eq_true, if_false]
      have ha' : rest.any (fun x => x.id == c.id) = true := by
        rw [List.any_cons, hk] at ha
        simpa using ha
      have hnd' : (rest.map Category.id).Nodup := by
        rw [List.map_cons, List.nodup_cons] at hnd
        exact hnd.2
      exact ih hnd' ha'

theorem upsertCatList_filter_self (c : CategoryBlock) (l : List Category)
    (hnd : (l.map Category.id).Nodup) :
    (upsertCatList c l).filter (fun k => k.id == c.id)
      = [⟨c.id, c.name, c.user_id⟩] := by
  unfold upsertCatList
  by_cases ha : l.any (fun k => k.id == c.id) = true
  · rw [if_pos ha]
    exact filter_map_upd_eq c l hnd ha
  · simp only [Bool.not_eq_true] at ha
    rw [if_neg (by rw [ha]; simp)]
    rw [List.filter_append]
    have hl : l.filter (fun k => k.id == c.id) = [] := by
      rw [List.filter_eq_nil_iff]
      intro a hamem hpred
      have : l.any (fun k => k.id == c.id) = true :=
        List.any_eq_true.mpr ⟨a, hamem, hpred⟩
      rw [ha] at this
      cases this
    rw [hl]
    simp

theorem upsertCatList_filter_ne (c : CategoryBlock) (l : List Category) (d : Int)
    (hd : ¬d = c.id) :
    (upsertCatList c l).filter (fun k => k.id == d)
      = l.filter (fun k => k.id == d) := by
  unfold upsertCatList
  by_cases ha : l.any (fun k => k.id == c.id) = true
  · rw [if_pos ha]
    induction l with
    | nil => rfl
    | cons k rest ih =>
      simp only [List.map_cons, List.filter_cons]
      by_cases hk : (k.id == c.id) = true
      · have hkid : k.id = c.id := beq_iff_eq.mp hk
        have h1 : ((if k.id == c.id then
            ({ k with name := c.name, user_id := c.user_id } : Category) else k).id
              == d) = false := by
          rw [if_pos hk]
          exact beq_eq_false_iff_ne.mpr (by rw [hkid]; intro hcon; exact hd hcon.symm)
        have h2 : (k.id == d) = false :=
          beq_eq_false_iff_ne.mpr (by rw [hkid]; intro hcon; exact hd hcon.symm)
        rw [h1, h2]
        simp only [Bool.false_eq_true, if_false]
        by_cases ha' : rest.any (fun x => x.id == c.id) = true
        · exact ih ha'
        · simp only [Bool.not_eq_true] at ha'
          have hmapid : rest.map (fun k => if k.id == c.id then
              ({ k with name := c.name, user_id := c.user_id } : Category) else k)
                = rest.map id := by
            apply List.map_congr_left
            intro x hx
            have : (x.id == c.id) = false := by
              by_contra hcon
              simp only [Bool.not_eq_false] at hcon
              have : rest.any (fun k => k.id == c.id) = true :=
                List.any_eq_true.mpr ⟨x, hx, hcon⟩
              rw [ha'] at this
              cases this
            rw [this]
            simp
          rw [hmapid, List.map_id]
      · simp only [Bool.not_eq_true] at hk
        have h1 : (if k.id == c.id then
            ({ k with name := c.name, user_id := c.user_id } : Category) else k) = k := by
          rw [hk]
          simp
        rw [h1]
        have ha' : rest.any (fun x => x.id == c.id) = true := by
          rw [List.any_cons, hk] at ha
          simpa using ha
        rw [ih ha']
  · simp only [Bool.not_eq_true] at ha
    rw [if_neg (by rw [ha]; simp)]
    rw [List.filter_append]
    have : List.filter (fun k => k.id == d) [(⟨c.id, c.name, c.user_id⟩ : Category)]
        = [] := by
      simp only [List.filter_cons, List.filter_nil]
      rw [show ((⟨c.id, c.name, c.user_id⟩ : Category).id == d) = false from
        beq_eq_false_iff_ne.mpr (fun hcon => hd hcon.symm)]
      simp
    rw [this]
    simp

/-- The `Category` rows an id `d` should map to after a run over `cs`: the
latest ingested values for `d` when the document carries `d`, otherwise the
pre-run rows for `d`. -/
def lastValue (d : Int) (cs : List CategoryBlock) (l : List Category) :
    List Category :=
  match lastWith d cs with
  | some b => [⟨b.id, b.name, b.user_id⟩]
  | none => l.filter (fun k => k.id == d)

theorem lastValue_some (d : Int) (cs : List CategoryBlock) (l : List Category)
    (b : CategoryBlock) (h : lastWith d cs = some b) :
    lastValue d cs l = [⟨b.id, b.name, b.user_id⟩] := by
  unfold lastValue
  rw [h]

theorem lastValue_none (d : Int) (cs : List CategoryBlock) (l : List Category)
    (h : lastWith d cs = none) :
    lastValue d cs l = l.filter (fun k => k.id == d) := by
  unfold lastValue
  rw [h]

theorem runDoc_nodup (cs : List CategoryBlock) (s : State)
    (hnd : (s.categories.map Category.id).Nodup) :
    ((runDoc cs s).1.categories.map Category.id).Nodup := by
  induction cs generalizing s with
  | nil => exact hnd
  | cons c rest ih =>
    cases hr : runCat c s with
    | mk u bu =>
      have hu : (u.categories.map Category.id).Nodup := by
        have hcats := runCat_categories c s
        rw [hr] at hcats
        simp only at hcats
        rw [hcats]
        exact upsertCatList_nodup c s.categories hnd
      cases bu with
      | true =>
        rw [runDoc_cons_true c rest s u hr]
        exact ih u hu
      | false =>
        rw [runDoc_cons_false c rest s u hr]
        exact hu

theorem runDoc_filter_last (cs : List CategoryBlock) (s : State)
    (hnd : (s.categories.map Category.id).Nodup)
    (hok : (runDoc cs s).2 = true) (d : Int) :
    (runDoc cs s).1.categories.filter (fun k => k.id == d)
      = lastValue d cs s.categories := by
  induction cs generalizing s with
  | nil =>
    rw [lastValue_none d [] s.categories rfl]
    rfl
  | cons c rest ih =>
    cases hr : runCat c s with
    | mk u bu =>
      cases bu with
      | false =>
        rw [runDoc_cons_false c rest s u hr] at hok
        cases hok
      | true =>
        rw [runDoc_cons_true c rest s u hr] at hok ⊢
        have hcats : u.categories = upsertCatList c s.categories := by
          have := runCat_categories c s
          rw [hr] at this
          exact this
        have hu : (u.categories.map Category.id).Nodup := by
          rw [hcats]
          exact upsertCatList_nodup c s.categories hnd
        have hih := ih u hu hok
        cases hlr : lastWith d rest with
        | some b =>
          rw [lastValue_some d rest u.categories b hlr] at hih
          have hl2 : lastWith d (c :: rest) = some b := by
            unfold lastWith
            rw [hlr]
          rw [lastValue_some d (c :: rest) s.categories b hl2]
          exact hih
        | none =>
          rw [lastValue_none d rest u.categories hlr] at hih
          by_cases hc : (c.id == d) = true
          · have hcid : c.id = d := beq_iff_eq.mp hc
            have hl2 : lastWith d (c :: rest) = some c := by
              unfold lastWith
              rw [hlr, if_pos hc]
            rw [lastValue_some d (c :: rest) s.categories c hl2, hih, hcats, ← hcid]
            exact upsertCatList_filter_self c s.categories hnd
          · have hl2 : lastWith d (c :: rest) = none := by
              unfold lastWith
              rw [hlr, if_neg hc]
            rw [lastValue_none d (c :: rest) s.categories hl2, hih, hcats]
            apply upsertCatList_filter_ne c s.categories d
            intro hcon
            exact hc (beq_iff_eq.mpr hcon.symm)

/-- C2: the category write is an insert-or-replace keyed solely by the
upstream id (`upsertCatList`): after ingesting the same document twice (the
first run succeeding), every id carried by a block of the document maps to
exactly one `Category` row, whose `name`/`user_id` are those of the LAST
block with that id — last-write-wins, values equal to the latest ingested
ones. -/
theorem category_upsert_last_write_wins (cs : List CategoryBlock) (s : State)
    (hnd : (s.categories.map Category.id).Nodup)
    (hok : (ingest (.ok ⟨cs⟩) s).2 = true) :
    ∀ c ∈ cs, ∃ b,
      lastWith c.id cs = some b ∧ b.id = c.id ∧
      (ingest (.ok ⟨cs⟩) (ingest (.ok ⟨cs⟩) s).1).1.categories.filter
        (fun k => k.id == c.id) = [⟨c.id, b.name, b.user_id⟩] := by
  intro c hc
  obtain ⟨b, hb⟩ := lastWith_isSome_of_mem cs c hc
  have hbid : b.id = c.id := lastWith_id c.id cs b hb
  refine ⟨b, hb, hbid, ?_⟩
  have hok1 : (runDoc cs s).2 = true := hok
  have hrep := runDoc_replay cs s (runDoc cs s).1
    (fun _ => ⟨[], (List.append_nil _).symm⟩) (fun _ => rfl)
  have hok2 : (runDoc cs (runDoc cs s).1).2 = true := by
    rw [hrep.2]
    exact hok1
  have hnd1 : ((runDoc cs s).1.categories.map Category.id).Nodup :=
    runDoc_nodup cs s hnd
  have hfil := runDoc_filter_last cs (runDoc cs s).1 hnd1 hok2 c.id
  rw [lastValue_some c.id cs (runDoc cs s).1.categories b hb, hbid] at hfil
  exact hfil

/-- A document repeating the same upstream category id with different
values. -/
def twoBlockDoc : Document :=
  ⟨[⟨1, "Shirts", 9, []⟩, ⟨1, "Tees", 8, []⟩]⟩

/-- Witness for C2: ingesting `twoBlockDoc` twice into the empty store
leaves exactly one `Category` row for id `1`, holding the second (latest)
block's values. -/
theorem category_upsert_last_write_wins_witness :
    ∃ b, lastWith (1 : Int) [⟨1, "Shirts", 9, []⟩, ⟨1, "Tees", 8, []⟩] = some b ∧
      b.id = 1 ∧
      (ingest (.ok twoBlockDoc)
        (ingest (.ok twoBlockDoc) emptyState).1).1.categories.filter
          (fun k => k.id == 1) = [⟨1, b.name, b.user_id⟩] :=
  category_upsert_last_write_wins [⟨1, "Shirts", 9, []⟩, ⟨1, "Tees", 8, []⟩]
    emptyState (by simp [emptyState]) (by rfl) ⟨1, "Shirts", 9, []⟩ (by simp)

end NodePrisma
